import Mathlib

/-!
Shallow embedding of the brainfuck interpreter (bf.cpp / main.cpp of
vladaviedov/bf-interpreter, final version), together with theorems checking
the natural-language specification against it.

The interpreter state consists of the memory tape (`mem`, unsigned 8-bit
cells modelled as naturals below 256), its size (`memsize`), the data
pointer (`ptr`), the global return-position stack (`goto_stack`, modelled
as a list with its head as the top), plus the input and output streams.
The instruction stream is a list of characters read by index; reading a
character at index i leaves the stream position at i + 1, matching
istream tellg/seekg arithmetic.
-/

namespace BFI

/-- Interpreter state: mirrors the global variables `mem`, `memsize`, `ptr`
and `goto_stack` of bf.cpp, plus explicit input/output streams.
The `ffEOF` flag records that `jump_ff` returned -1 (end of stream reached
without a matching close bracket); `bf_execute` discards that return value,
so the flag is observable only in the model. -/
structure BFState where
  memsize : Nat
  mem : List Nat
  ptr : Nat
  gotoStack : List Nat
  inputBuf : List Nat
  output : List Nat
  ffEOF : Bool
deriving DecidableEq

/-- Result of `bf_execute`: `done` is the `return 0` path, `invalid` the
`return -1` path after failed verification, `ub` marks the C++ undefined
behavior of popping or reading the top of an empty `goto_stack`, and
`outOfFuel` means the fuel bound was reached before the run ended. -/
inductive ExecOutcome where
  | done (s : BFState)
  | invalid (s : BFState)
  | ub (s : BFState)
  | outOfFuel (s : BFState)
deriving DecidableEq

/-- The bracket counter of `verify`: +1 on loop-open, -1 on loop-close,
folded over the whole stream (`brackets_open` in the source). -/
def brkBal (l : List Char) : Int :=
  l.foldl (fun acc c => if c = '[' then acc + 1 else if c = ']' then acc - 1 else acc) 0

/-- `verify` from bf.cpp: scans the whole stream, counts loop-open minus
loop-close, and accepts iff the counter ends at zero. -/
def verify (code : List Char) : Bool :=
  brkBal code == 0

/-- `bf_ptroffset` from bf.cpp: wraparound pointer arithmetic on the tape. -/
def bf_ptroffset (memsize ptr : Nat) (offset : Int) : Nat :=
  if offset = 0 then ptr
  else if 0 < offset then
    if offset.natAbs < memsize - ptr then ptr + offset.natAbs
    else offset.natAbs - (memsize - ptr)
  else
    if offset.natAbs ≤ ptr then ptr - offset.natAbs
    else memsize - (offset.natAbs - ptr)

/-- Helper for `jump_ff`: scans the remaining characters with the running
`skip` counter; returns the stream position just after the matching
loop-close, or `none` when the stream ends first (the -1 return). -/
def jump_ffAux : List Char → Nat → Nat → Option Nat
  | [], _, _ => none
  | c :: rest, pos, skip =>
    if c = '[' then jump_ffAux rest (pos + 1) (skip + 1)
    else if c = ']' then
      if 0 < skip then jump_ffAux rest (pos + 1) (skip - 1)
      else some (pos + 1)
    else jump_ffAux rest (pos + 1) skip

/-- `jump_ff` from bf.cpp, started at stream position `pos`. -/
def jump_ff (code : List Char) (pos : Nat) : Option Nat :=
  jump_ffAux (code.drop pos) pos 0

/-- Unsigned 8-bit cell increment, `(*cell)++` on a `uint8_t`. -/
def cellInc (c : Nat) : Nat := (c + 1) % 256

/-- Unsigned 8-bit cell decrement, `(*cell)--` on a `uint8_t`. -/
def cellDec (c : Nat) : Nat := (c + 255) % 256

/-- `getchar()`: yields the next input byte, or -1 at end of input. -/
def getcharModel : List Nat → Int × List Nat
  | [] => (-1, [])
  | b :: bs => ((b : Int), bs)

/-- Conversion of an `int` value to `uint8_t` on assignment: reduction
modulo 256, so -1 becomes 255. -/
def byteOfInt (v : Int) : Nat := (v % 256).toNat

/-- Store value `v` into the cell at the current pointer. -/
def setMem (s : BFState) (v : Nat) : BFState :=
  { s with mem := s.mem.set s.ptr v }

/-- One arm of the `switch (cmd)` dispatch of `bf_execute`: given the
stream position `pos` just after reading `cmd`, produce either the next
stream position and state (`Sum.inl`), or the state at which an empty
`goto_stack` was popped or read — undefined behavior in the C++ source
(`Sum.inr`). The current cell is `s.mem.getD s.ptr 0` (the `*cell` read).
On loop-open with a zero cell, a failed `jump_ff` has consumed the whole
stream: its -1 return value is discarded and execution resumes at
end-of-stream, recorded by the `ffEOF` flag. -/
def execStep (code : List Char) (pos : Nat) (s : BFState) (cmd : Char) :
    (Nat × BFState) ⊕ BFState :=
  if cmd = '>' then .inl (pos + 1, { s with ptr := bf_ptroffset s.memsize s.ptr 1 })
  else if cmd = '<' then .inl (pos + 1, { s with ptr := bf_ptroffset s.memsize s.ptr (-1) })
  else if cmd = '+' then .inl (pos + 1, setMem s (cellInc (s.mem.getD s.ptr 0)))
  else if cmd = '-' then .inl (pos + 1, setMem s (cellDec (s.mem.getD s.ptr 0)))
  else if cmd = '.' then .inl (pos + 1, { s with output := s.output ++ [s.mem.getD s.ptr 0] })
  else if cmd = ',' then
    .inl (pos + 1, setMem { s with inputBuf := (getcharModel s.inputBuf).2 }
      (byteOfInt (getcharModel s.inputBuf).1))
  else if cmd = '[' then
    if s.mem.getD s.ptr 0 ≠ 0 then
      .inl (pos + 1, { s with gotoStack := (pos + 1) :: s.gotoStack })
    else
      match jump_ff code (pos + 1) with
      | some r => .inl (r, s)
      | none => .inl (code.length, { s with ffEOF := true })
  else if cmd = ']' then
    if s.mem.getD s.ptr 0 ≠ 0 then
      match s.gotoStack with
      | [] => .inr s
      | t :: _ => .inl (t, s)
    else
      match s.gotoStack with
      | [] => .inr s
      | _ :: rest => .inl (pos + 1, { s with gotoStack := rest })
  else .inl (pos + 1, s)

/-- The `while (code >> cmd)` dispatch loop of `bf_execute`, with explicit
fuel. `pos` is the stream position of the next character to read; pushing
on loop-open records `pos + 1`, the tellg value after reading the bracket. -/
def bf_executeLoop (code : List Char) : Nat → Nat → BFState → ExecOutcome
  | 0, _, s => .outOfFuel s
  | fuel + 1, pos, s =>
    match code[pos]? with
    | none => .done s
    | some cmd =>
      match execStep code pos s cmd with
      | .inl ps => bf_executeLoop code fuel ps.1 ps.2
      | .inr sub => .ub sub

/-- `bf_execute` from bf.cpp: run `verify`; on failure report the error and
return -1 leaving all state untouched; otherwise rewind the stream and run
the dispatch loop. -/
def bf_execute (code : List Char) (fuel : Nat) (s : BFState) : ExecOutcome :=
  if verify code then bf_executeLoop code fuel 0 s else .invalid s

/-- `bf_reset` from bf.cpp: `memset(mem, 0, memsize)` and `ptr = 0`. -/
def bf_reset (s : BFState) : BFState :=
  { s with mem := List.replicate s.memsize 0, ptr := 0 }

/-- `bf_value(location)` from bf.cpp: read a cell without moving the pointer. -/
def bf_value (s : BFState) (location : Nat) : Nat :=
  s.mem.getD location 0

/-- `MEM_DEFAULT` from main.cpp. -/
def MEM_DEFAULT : Nat := 256

/-- The memory size chosen by `main`: `mem_size = MEM_DEFAULT`, overridden
by `atoi(optarg)` when the -m option is given. -/
def main_mem_size (mOpt : Option Nat) : Nat :=
  mOpt.getD MEM_DEFAULT

/-- Bracket contribution of a single character. -/
def brkDelta (c : Char) : Int :=
  if c = '[' then 1 else if c = ']' then -1 else 0

/-- Invariant tying each stored return position to the stack depth below
it: the bracket balance of the stream suffix starting at an entry equals
minus the depth of the stack up to and including that entry. -/
def stackInv (code : List Char) : List Nat → Prop
  | [] => True
  | t :: rest => brkBal (code.drop t) = -((rest.length : Int) + 1) ∧ stackInv code rest

/- ### Helper lemmas about the bracket balance -/

lemma brkFold_eq (l : List Char) (acc : Int) :
    l.foldl (fun a c => if c = '[' then a + 1 else if c = ']' then a - 1 else a) acc
      = acc + brkBal l := by
  induction l generalizing acc with
  | nil => simp [brkBal]
  | cons c t ih =>
    have hl : brkBal (c :: t)
        = (if c = '[' then (0 : Int) + 1 else if c = ']' then (0 : Int) - 1 else 0) + brkBal t := by
      show List.foldl _ _ t = _
      rw [ih]
    rw [List.foldl_cons, ih, hl]
    split_ifs <;> ring

lemma brkBal_cons (c : Char) (l : List Char) : brkBal (c :: l) = brkDelta c + brkBal l := by
  show List.foldl _ _ l = _
  rw [brkFold_eq, brkDelta]
  beta_reduce
  by_cases h1 : c = '['
  · rw [if_pos h1, if_pos h1]
    ring
  · rw [if_neg h1, if_neg h1]
    by_cases h2 : c = ']'
    · rw [if_pos h2, if_pos h2]
      ring
    · rw [if_neg h2, if_neg h2]
      try ring

lemma brkBal_append (a b : List Char) : brkBal (a ++ b) = brkBal a + brkBal b := by
  show List.foldl _ _ (a ++ b) = _
  rw [List.foldl_append, brkFold_eq]
  rfl

lemma brkBal_split (l : List Char) (n : Nat) :
    brkBal l = brkBal (l.take n) + brkBal (l.drop n) := by
  conv_lhs => rw [← List.take_append_drop n l]
  rw [brkBal_append]

lemma brkDelta_open : brkDelta '[' = 1 := rfl

lemma brkDelta_close : brkDelta ']' = -1 := rfl

lemma brkDelta_other (c : Char) (h1 : c ≠ '[') (h2 : c ≠ ']') : brkDelta c = 0 := by
  simp [brkDelta, h1, h2]

lemma brkBal_eq_counts (l : List Char) :
    brkBal l = (l.count '[' : Int) - (l.count ']' : Int) := by
  induction l with
  | nil => simp [brkBal]
  | cons c t ih =>
    rw [brkBal_cons, ih]
    by_cases h1 : c = '['
    · subst h1
      rw [brkDelta_open]
      simp only [List.count_cons]
      push_cast
      have : ((']' == '[') : Bool) = false := by decide
      simp [this]
      ring
    · by_cases h2 : c = ']'
      · subst h2
        rw [brkDelta_close]
        simp only [List.count_cons]
        push_cast
        have : (('[' == ']') : Bool) = false := by decide
        simp [this]
        ring
      · rw [brkDelta_other c h1 h2]
        simp only [List.count_cons]
        have e1 : ((c == '[') : Bool) = false := by
          simp [h1]
        have e2 : ((c == ']') : Bool) = false := by
          simp [h2]
        simp [e1, e2]

lemma verify_iff (code : List Char) :
    verify code = true ↔ code.count '[' = code.count ']' := by
  rw [verify, beq_iff_eq, brkBal_eq_counts]
  omega

lemma drop_pos_eq (code : List Char) (pos : Nat) (cmd : Char) (h : code[pos]? = some cmd) :
    code.drop pos = cmd :: code.drop (pos + 1) := by
  have hlt : pos < code.length := by
    by_contra hge
    rw [List.getElem?_eq_none (by omega)] at h
    cases h
  obtain ⟨h1, h2⟩ := List.getElem?_eq_some.mp h
  rw [List.drop_eq_getElem_cons hlt, h2]

/- ### Lemmas about the fast-forward scan -/

lemma jump_ffAux_some (l : List Char) : ∀ (pos skip r : Nat),
    jump_ffAux l pos skip = some r →
    pos < r ∧ r - pos ≤ l.length ∧ brkBal (l.take (r - pos)) = -((skip : Int) + 1) := by
  induction l with
  | nil =>
    intro pos skip r h
    exact absurd h (by simp [jump_ffAux])
  | cons c t ih =>
    intro pos skip r h
    rw [jump_ffAux] at h
    by_cases h1 : c = '['
    · rw [if_pos h1] at h
      obtain ⟨hlt, hle, hbal⟩ := ih (pos + 1) (skip + 1) r h
      refine ⟨by omega, by simp; omega, ?_⟩
      have he : r - pos = (r - (pos + 1)) + 1 := by omega
      rw [he, List.take_succ_cons, brkBal_cons, hbal, h1, brkDelta_open]
      push_cast
      ring
    · rw [if_neg h1] at h
      by_cases h2 : c = ']'
      · rw [if_pos h2] at h
        by_cases h3 : 0 < skip
        · rw [if_pos h3] at h
          obtain ⟨hlt, hle, hbal⟩ := ih (pos + 1) (skip - 1) r h
          refine ⟨by omega, by simp; omega, ?_⟩
          have he : r - pos = (r - (pos + 1)) + 1 := by omega
          rw [he, List.take_succ_cons, brkBal_cons, hbal, h2, brkDelta_close]
          have hc : (((skip - 1 : Nat) : Int)) = (skip : Int) - 1 := by omega
          rw [hc]
          ring
        · rw [if_neg h3] at h
          have hr : r = pos + 1 := by
            cases h
            rfl
          subst hr
          have hs : skip = 0 := by omega
          subst hs
          refine ⟨by omega, by simp, ?_⟩
          have he : pos + 1 - pos = 1 := by omega
          rw [he, List.take_succ_cons, List.take_zero, brkBal_cons, h2, brkDelta_close]
          simp [brkBal]
      · rw [if_neg h2] at h
        obtain ⟨hlt, hle, hbal⟩ := ih (pos + 1) skip r h
        refine ⟨by omega, by simp; omega, ?_⟩
        have he : r - pos = (r - (pos + 1)) + 1 := by omega
        rw [he, List.take_succ_cons, brkBal_cons, hbal, brkDelta_other c h1 h2]
        ring

lemma jump_ffAux_none (l : List Char) : ∀ (pos skip : Nat),
    jump_ffAux l pos skip = none → -((skip : Int)) ≤ brkBal l := by
  induction l with
  | nil =>
    intro pos skip h
    rw [show brkBal [] = 0 from rfl]
    omega
  | cons c t ih =>
    intro pos skip h
    rw [jump_ffAux] at h
    rw [brkBal_cons]
    by_cases h1 : c = '['
    · rw [if_pos h1] at h
      have := ih (pos + 1) (skip + 1) h
      rw [h1, brkDelta_open]
      push_cast at this
      omega
    · rw [if_neg h1] at h
      by_cases h2 : c = ']'
      · rw [if_pos h2] at h
        by_cases h3 : 0 < skip
        · rw [if_pos h3] at h
          have := ih (pos + 1) (skip - 1) h
          rw [h2, brkDelta_close]
          have hc : (((skip - 1 : Nat) : Int)) = (skip : Int) - 1 := by omega
          rw [hc] at this
          omega
        · rw [if_neg h3] at h
          cases h
      · rw [if_neg h2] at h
        have := ih (pos + 1) skip h
        rw [brkDelta_other c h1 h2]
        omega

lemma jump_ff_some_bal (code : List Char) (pos r : Nat)
    (h : jump_ff code pos = some r) :
    pos < r ∧ brkBal (code.drop pos) = -1 + brkBal (code.drop r) := by
  rw [jump_ff] at h
  obtain ⟨hlt, hle, hbal⟩ := jump_ffAux_some (code.drop pos) pos 0 r h
  constructor
  · exact hlt
  · rw [brkBal_split (code.drop pos) (r - pos), hbal, List.drop_drop]
    have he : pos + (r - pos) = r := by omega
    rw [he]
    push_cast
    ring

lemma jump_ff_none_bal (code : List Char) (pos : Nat)
    (h : jump_ff code pos = none) :
    0 ≤ brkBal (code.drop pos) := by
  rw [jump_ff] at h
  have := jump_ffAux_none (code.drop pos) pos 0 h
  simpa using this

/- ### The stack-depth invariant of the dispatch loop -/

lemma execStep_inv (code : List Char) (pos : Nat) (s : BFState) (cmd : Char)
    (ps : Nat × BFState)
    (hget : code[pos]? = some cmd)
    (hbal : brkBal (code.drop pos) = -((s.gotoStack.length : Int)))
    (hinv : stackInv code s.gotoStack)
    (hstep : execStep code pos s cmd = .inl ps) :
    brkBal (code.drop ps.1) = -((ps.2.gotoStack.length : Int)) ∧ stackInv code ps.2.gotoStack := by
  have hdrop : code.drop pos = cmd :: code.drop (pos + 1) := drop_pos_eq code pos cmd hget
  have hbal' : brkBal (code.drop (pos + 1)) = -((s.gotoStack.length : Int)) - brkDelta cmd := by
    rw [hdrop, brkBal_cons] at hbal
    omega
  rw [execStep] at hstep
  by_cases h1 : cmd = '>'
  · rw [if_pos h1] at hstep
    cases hstep
    refine ⟨?_, hinv⟩
    show brkBal (code.drop (pos + 1)) = -((s.gotoStack.length : Int))
    rw [hbal', brkDelta_other cmd (by rw [h1]; decide) (by rw [h1]; decide)]
    ring
  · rw [if_neg h1] at hstep
    by_cases h2 : cmd = '<'
    · rw [if_pos h2] at hstep
      cases hstep
      refine ⟨?_, hinv⟩
      show brkBal (code.drop (pos + 1)) = -((s.gotoStack.length : Int))
      rw [hbal', brkDelta_other cmd (by rw [h2]; decide) (by rw [h2]; decide)]
      ring
    · rw [if_neg h2] at hstep
      by_cases h3 : cmd = '+'
      · rw [if_pos h3] at hstep
        cases hstep
        refine ⟨?_, hinv⟩
        show brkBal (code.drop (pos + 1)) = -((s.gotoStack.length : Int))
        rw [hbal', brkDelta_other cmd (by rw [h3]; decide) (by rw [h3]; decide)]
        ring
      · rw [if_neg h3] at hstep
        by_cases h4 : cmd = '-'
        · rw [if_pos h4] at hstep
          cases hstep
          refine ⟨?_, hinv⟩
          show brkBal (code.drop (pos + 1)) = -((s.gotoStack.length : Int))
          rw [hbal', brkDelta_other cmd (by rw [h4]; decide) (by rw [h4]; decide)]
          ring
        · rw [if_neg h4] at hstep
          by_cases h5 : cmd = '.'
          · rw [if_pos h5] at hstep
            cases hstep
            refine ⟨?_, hinv⟩
            show brkBal (code.drop (pos + 1)) = -((s.gotoStack.length : Int))
            rw [hbal', brkDelta_other cmd (by rw [h5]; decide) (by rw [h5]; decide)]
            ring
          · rw [if_neg h5] at hstep
            by_cases h6 : cmd = ','
            · rw [if_pos h6] at hstep
              cases hstep
              refine ⟨?_, hinv⟩
              show brkBal (code.drop (pos + 1)) = -((s.gotoStack.length : Int))
              rw [hbal', brkDelta_other cmd (by rw [h6]; decide) (by rw [h6]; decide)]
              ring
            · rw [if_neg h6] at hstep
              by_cases h7 : cmd = '['
              · rw [if_pos h7] at hstep
                by_cases hc : s.mem.getD s.ptr 0 ≠ 0
                · rw [if_pos hc] at hstep
                  cases hstep
                  constructor
                  · show brkBal (code.drop (pos + 1)) = -((((pos + 1) :: s.gotoStack).length : Int))
                    rw [hbal', h7, brkDelta_open]
                    show _ = -(((s.gotoStack.length + 1 : Nat) : Int))
                    push_cast
                    ring
                  · show brkBal (code.drop (pos + 1)) = -((s.gotoStack.length : Int) + 1)
                        ∧ stackInv code s.gotoStack
                    refine ⟨?_, hinv⟩
                    rw [hbal', h7, brkDelta_open]
                    ring
                · rw [if_neg hc] at hstep
                  rcases hff : jump_ff code (pos + 1) with _ | r
                  · rw [hff] at hstep
                    cases hstep
                    exfalso
                    have hge := jump_ff_none_bal code (pos + 1) hff
                    rw [hbal', h7, brkDelta_open] at hge
                    omega
                  · rw [hff] at hstep
                    cases hstep
                    obtain ⟨hlt, hb⟩ := jump_ff_some_bal code (pos + 1) r hff
                    refine ⟨?_, hinv⟩
                    show brkBal (code.drop r) = -((s.gotoStack.length : Int))
                    rw [hbal', h7, brkDelta_open] at hb
                    omega
              · rw [if_neg h7] at hstep
                by_cases h8 : cmd = ']'
                · rw [if_pos h8] at hstep
                  by_cases hc : s.mem.getD s.ptr 0 ≠ 0
                  · rw [if_pos hc] at hstep
                    rcases hs : s.gotoStack with _ | ⟨t, rest⟩
                    · rw [hs] at hstep
                      cases hstep
                    · rw [hs] at hstep
                      cases hstep
                      rw [hs] at hinv
                      obtain ⟨ht, hrest⟩ := hinv
                      constructor
                      · show brkBal (code.drop t) = -((s.gotoStack.length : Int))
                        rw [ht, hs]
                        show _ = -(((rest.length + 1 : Nat) : Int))
                        push_cast
                        ring
                      · show stackInv code s.gotoStack
                        rw [hs]
                        exact ⟨ht, hrest⟩
                  · rw [if_neg hc] at hstep
                    rcases hs : s.gotoStack with _ | ⟨t, rest⟩
                    · rw [hs] at hstep
                      cases hstep
                    · rw [hs] at hstep
                      cases hstep
                      rw [hs] at hinv
                      obtain ⟨ht, hrest⟩ := hinv
                      constructor
                      · show brkBal (code.drop (pos + 1)) = -((rest.length : Int))
                        rw [hbal', h8, brkDelta_close, hs]
                        show -(((rest.length + 1 : Nat) : Int)) - -1 = -((rest.length : Int))
                        push_cast
                        ring
                      · exact hrest
                · rw [if_neg h8] at hstep
                  cases hstep
                  refine ⟨?_, hinv⟩
                  show brkBal (code.drop (pos + 1)) = -((s.gotoStack.length : Int))
                  rw [hbal', brkDelta_other cmd h7 h8]
                  ring

lemma executeLoop_ne_invalid (code : List Char) : ∀ (fuel pos : Nat) (s s' : BFState),
    bf_executeLoop code fuel pos s ≠ .invalid s' := by
  intro fuel
  induction fuel with
  | zero =>
    intro pos s s' h
    rw [bf_executeLoop] at h
    cases h
  | succ fuel ih =>
    intro pos s s' h
    rw [bf_executeLoop] at h
    split at h
    · cases h
    · split at h
      · exact ih _ _ _ h
      · cases h

lemma executeLoop_done_empty (code : List Char) : ∀ (fuel pos : Nat) (s s' : BFState),
    brkBal (code.drop pos) = -((s.gotoStack.length : Int)) →
    stackInv code s.gotoStack →
    bf_executeLoop code fuel pos s = .done s' →
    s'.gotoStack = [] := by
  intro fuel
  induction fuel with
  | zero =>
    intro pos s s' hbal hinv hrun
    rw [bf_executeLoop] at hrun
    cases hrun
  | succ fuel ih =>
    intro pos s s' hbal hinv hrun
    rw [bf_executeLoop] at hrun
    split at hrun
    · next hget =>
      cases hrun
      have hnil : code.drop pos = [] := by
        rw [List.drop_eq_nil_iff]
        exact List.getElem?_eq_none_iff.mp hget
      rw [hnil, show brkBal [] = 0 from rfl] at hbal
      have hlen : s.gotoStack.length = 0 := by omega
      exact List.length_eq_zero.mp hlen
    · next cmd hget =>
      split at hrun
      · next ps hstep =>
        obtain ⟨hbal', hinv'⟩ := execStep_inv code pos s cmd ps hget hbal hinv hstep
        exact ih ps.1 ps.2 s' hbal' hinv' hrun
      · next sub hstep =>
        cases hrun

/- ### Claim theorems -/

/-- C1: the verification pass accepts an instruction stream if and only if
the number of loop-open characters equals the number of loop-close
characters, regardless of their order (only the final counter value
matters), and rejects every stream with unequal counts. -/
theorem verify_iff_equal_counts (code : List Char) :
    verify code = true ↔ code.count '[' = code.count ']' :=
  verify_iff code

/-- Witness for C1: the order-insensitive stream consisting of a loop-close
followed by a loop-open has equal counts and is accepted. -/
theorem verify_iff_equal_counts_witness : verify (String.toList "][") = true :=
  (verify_iff_equal_counts (String.toList "][")).mpr (by decide)

/-- C2: on any stream with unequal loop-open and loop-close counts,
`bf_execute` fails verification and returns the error outcome with the
state — tape cells, cursor, stack, streams — completely untouched. -/
theorem invalid_program_no_side_effects (code : List Char) (fuel : Nat) (s : BFState)
    (h : code.count '[' ≠ code.count ']') :
    bf_execute code fuel s = .invalid s := by
  rw [bf_execute, if_neg]
  intro hv
  exact h ((verify_iff code).mp hv)

/-- Witness for C2: `execute("]")` returns the invalid-program error and
leaves the state unchanged. -/
theorem invalid_program_no_side_effects_witness :
    bf_execute (String.toList "]") 5 (BFState.mk 4 [0, 0, 0, 0] 0 [] [] [] false)
      = .invalid (BFState.mk 4 [0, 0, 0, 0] 0 [] [] [] false) :=
  invalid_program_no_side_effects (String.toList "]") 5 _ (by decide)

/-- C3: for every cursor in `[0, N)` and signed delta of magnitude at most
`N`, `bf_ptroffset` lands in `[0, N)`; a negative delta that would
underflow past 0 wraps to the high end, a positive delta that would pass
`N - 1` wraps to the low end, and moving by `+N` or `-N` returns the same
position. -/
theorem ptroffset_in_range_wraparound (N p : Nat) (d : Int) (hN : 0 < N) (hp : p < N)
    (hd : d.natAbs ≤ N) :
    bf_ptroffset N p d < N
    ∧ (d < 0 → p < d.natAbs → bf_ptroffset N p d = N - (d.natAbs - p))
    ∧ (0 < d → N ≤ p + d.natAbs → bf_ptroffset N p d = p + d.natAbs - N)
    ∧ bf_ptroffset N p (N : Int) = p
    ∧ bf_ptroffset N p (-(N : Int)) = p := by
  refine ⟨?_, fun hneg hlt => ?_, fun hpos hge => ?_, ?_, ?_⟩ <;>
    rw [bf_ptroffset] <;> split_ifs <;> omega

/-- Witness for C3: at N = 5, cursor 3, delta -4, the offset wraps to the
high end. -/
theorem ptroffset_in_range_wraparound_witness : bf_ptroffset 5 3 (-4) < 5 :=
  (ptroffset_in_range_wraparound 5 3 (-4) (by decide) (by decide) (by decide)).1

/-- Counterexample for C4: running `"]["` (which passes verification) from
a state whose current cell is zero makes the fast-forward scan for the
final loop-open reach end-of-stream (`ffEOF` is raised); `bf_execute`
nevertheless returns the success outcome `done` (the C++ code discards the
-1 that `jump_ff` returns), not a `TruncatedJumpError`. -/
theorem ff_eof_counterexample :
    bf_execute (String.toList "][") 5 (BFState.mk 4 [0, 0, 0, 0] 0 [0] [] [] false)
      = .done (BFState.mk 4 [0, 0, 0, 0] 0 [] [] [] true) := by
  decide

/-- C4 (amended): when a loop-open with a zero current cell triggers the
fast-forward scan and the scan reaches end-of-stream without finding the
matching loop-close, execution stops at end-of-stream with the tape state
as of the last fully-applied instruction retained, and returns the normal
success outcome (return value 0): `jump_ff`'s -1 is discarded and no
`TruncatedJumpError` is reported. -/
theorem ff_eof_silent_success (code : List Char) (fuel pos : Nat) (s : BFState)
    (hc : code[pos]? = some '[')
    (hcell : s.mem.getD s.ptr 0 = 0)
    (hff : jump_ff code (pos + 1) = none) :
    bf_executeLoop code (fuel + 2) pos s = .done { s with ffEOF := true } := by
  have hstep : execStep code pos s '[' = .inl (code.length, { s with ffEOF := true }) := by
    rw [execStep]
    rw [if_neg (by decide), if_neg (by decide), if_neg (by decide), if_neg (by decide),
      if_neg (by decide), if_neg (by decide), if_pos rfl,
      if_neg (show ¬(s.mem.getD s.ptr 0 ≠ 0) from fun hne => hne hcell), hff]
  show bf_executeLoop code (fuel + 1 + 1) pos s = _
  rw [bf_executeLoop]
  simp only [hc, hstep]
  rw [bf_executeLoop]
  simp only [List.getElem?_eq_none (le_refl code.length)]

/-- Witness for C4 (amended): dispatching the loop-open of `"]["` at
position 1 on a zeroed tape ends the run at end-of-stream with success. -/
theorem ff_eof_silent_success_witness :
    bf_executeLoop (String.toList "][") 2 1 (BFState.mk 4 [0, 0, 0, 0] 0 [] [] [] false)
      = .done (BFState.mk 4 [0, 0, 0, 0] 0 [] [] [] true) :=
  ff_eof_silent_success (String.toList "][") 0 1 (BFState.mk 4 [0, 0, 0, 0] 0 [] [] [] false)
    (by decide) (by decide) (by decide)

/-- C5: a call to `bf_execute` that starts with an empty return-position
stack and returns — normally or with the verification error — leaves the
stack empty, so no entry pushed during one call is ever observed by a
later, independent call (each call again begins with an empty stack). -/
theorem goto_stack_empty_after_execute (code : List Char) (fuel : Nat) (s s' : BFState)
    (hstart : s.gotoStack = [])
    (hrun : bf_execute code fuel s = .done s' ∨ bf_execute code fuel s = .invalid s') :
    s'.gotoStack = [] := by
  rcases hrun with hdone | hinv
  · rw [bf_execute] at hdone
    by_cases hv : verify code = true
    · rw [if_pos hv] at hdone
      have hbal : brkBal (code.drop 0) = -((s.gotoStack.length : Int)) := by
        rw [List.drop_zero, hstart]
        rw [verify] at hv
        have := beq_iff_eq.mp hv
        simpa using this
      have hinv0 : stackInv code s.gotoStack := by
        rw [hstart]
        trivial
      exact executeLoop_done_empty code fuel 0 s s' hbal hinv0 hdone
    · rw [if_neg hv] at hdone
      cases hdone
  · rw [bf_execute] at hinv
    by_cases hv : verify code = true
    · rw [if_pos hv] at hinv
      exact absurd hinv (executeLoop_ne_invalid code fuel 0 s s')
    · rw [if_neg hv] at hinv
      cases hinv
      rw [← hstart]

/-- Witness for C5: running `"+[-]"` from a zeroed tape with an empty
stack terminates normally and the final stack is again empty. -/
theorem goto_stack_empty_after_execute_witness :
    (BFState.mk 4 [0, 0, 0, 0] 0 [] [] [] false).gotoStack = [] :=
  goto_stack_empty_after_execute (String.toList "+[-]") 10
    (BFState.mk 4 [0, 0, 0, 0] 0 [] [] [] false)
    (BFState.mk 4 [0, 0, 0, 0] 0 [] [] [] false) rfl (Or.inl (by decide))

/-- C6: executing `"++>+++++[<+>-]"` on an initially zeroed tape with
cursor 0 terminates with cell 0 holding 7, cell 1 holding 0, and the
cursor at position 1. -/
theorem scenario_A_result :
    bf_execute (String.toList "++>+++++[<+>-]") 100
        (BFState.mk 8 (List.replicate 8 0) 0 [] [] [] false)
      = .done (BFState.mk 8 [7, 0, 0, 0, 0, 0, 0, 0] 1 [] [] [] false) := by
  decide

/-- C7: cell increment and decrement wrap around at 8 bits — incrementing
255 yields 0, decrementing 0 yields 255 — and applying the increment 256
times to any cell value returns it to its original value. -/
theorem cell_increment_wraparound :
    cellInc 255 = 0 ∧ cellDec 0 = 255 ∧ ∀ c : Nat, c < 256 → cellInc^[256] c = c := by
  refine ⟨by decide, by decide, fun c hc => ?_⟩
  have hgen : ∀ n : Nat, cellInc^[n] c = (c + n) % 256 := by
    intro n
    induction n with
    | zero => simp [Nat.mod_eq_of_lt hc]
    | succ n ih =>
      rw [Function.iterate_succ_apply', ih, cellInc]
      omega
  rw [hgen 256]
  omega

/-- Witness for C7: 256 increments starting from 7 return to 7. -/
theorem cell_increment_wraparound_witness : cellInc^[256] 7 = 7 :=
  cell_increment_wraparound.2.2 7 (by decide)

/-- C8: after `bf_reset`, every cell of the tape reads zero and the cursor
is 0, for every prior tape state. -/
theorem reset_zeroes_tape (s : BFState) (i : Nat) (hi : i < s.memsize) :
    bf_value (bf_reset s) i = 0 ∧ (bf_reset s).ptr = 0 := by
  refine ⟨?_, rfl⟩
  rw [bf_value, bf_reset]
  simp

/-- Witness for C8: resetting a dirty 3-cell tape zeroes cell 1 and the
cursor. -/
theorem reset_zeroes_tape_witness :
    bf_value (bf_reset (BFState.mk 3 [7, 8, 9] 2 [4] [] [] false)) 1 = 0
      ∧ (bf_reset (BFState.mk 3 [7, 8, 9] 2 [4] [] [] false)).ptr = 0 :=
  reset_zeroes_tape (BFState.mk 3 [7, 8, 9] 2 [4] [] [] false) 1 (by decide)

/-- Counterexample for C9: the default tape length compiled into `main`
(`MEM_DEFAULT`) is not 30000. -/
theorem default_mem_size_ne_30000 : main_mem_size none ≠ 30000 := by decide

/-- C9 (amended): when no memory size is configured, the tape is allocated
with the default length of 256 cells (`MEM_DEFAULT` in main.cpp). -/
theorem default_mem_size_eq_256 : main_mem_size none = 256 := rfl

/-- C10: the input instruction stores the value read from the input source
into the current cell truncated to 8 bits; in particular, at end-of-input
`getchar`'s -1 is truncated to 255 and deterministically stored (the cell
is not left unchanged and not set to 0). -/
theorem input_stores_truncated_byte (s : BFState) :
    (s.inputBuf = [] →
      bf_execute [','] 2 s = .done { s with mem := s.mem.set s.ptr 255 })
    ∧ (∀ b bs, s.inputBuf = b :: bs →
      bf_execute [','] 2 s = .done { s with mem := s.mem.set s.ptr (b % 256), inputBuf := bs }) := by
  obtain ⟨ms, mem, p, gs, ib, out, ff⟩ := s
  constructor
  · intro h
    have h' : ib = [] := h
    subst h'
    rfl
  · intro b bs h
    have h' : ib = b :: bs := h
    subst h'
    rfl

/-- Witness for C10: executing `","` with exhausted input sets the current
cell (previously 9) to 255. -/
theorem input_stores_truncated_byte_witness :
    bf_execute [','] 2 (BFState.mk 4 [9, 0, 0, 0] 0 [] [] [] false)
      = .done (BFState.mk 4 [255, 0, 0, 0] 0 [] [] [] false) :=
  (input_stores_truncated_byte (BFState.mk 4 [9, 0, 0, 0] 0 [] [] [] false)).1 rfl

end BFI
